import Mathlib

/-! Verification development for the logging core in
`src/http_server/src/Logger.h` / `src/http_server/src/Logger.cpp`.

Modelling conventions for the shallow embedding:

* `timeStr()` reads the wall clock (`gettimeofday`), so it is nondeterministic
  input; every operation that formats output takes the timestamp string as an
  explicit parameter `ts : String`.
* Environment facts (`std::cout.good()`, and whether opening a given file path
  yields a good stream) are collected in `Env`.
* Output bytes are modelled as `List Char`.
* `std::string::back()` on an empty string is an out-of-bounds access
  (undefined behaviour); the model of the trailing-newline stripping loop
  returns `none` exactly when the loop would perform that access.
* `std::mutex` is not recursive: locking it again from the thread that already
  holds it is undefined behaviour (in practice a self-deadlock).  The one code
  path that does this (the `Worker` constructor emitting its `LOG(WARNING)`
  while `Manager::addWorker` holds the lock) is modelled as `Except.error ()`.
* `std::filesystem` state is modelled by `FS`: a list of existing directories
  and an association list from file paths to contents.  Paths are modelled as
  strings with `/`-separated components (the console sentinel is `""`).
  Streaming a `std::filesystem::path` into an output stream prints it quoted
  (`std::quoted`), which `quotePath` models.
-/

namespace Logger

/-- Severity enum from Logger.h (`enum Level : std::uint8_t`), ordinals
CRITICAL = 0 .. TRACE = 5. -/
inductive Level where
  | CRITICAL
  | ERROR
  | WARNING
  | INFO
  | DEBUG
  | TRACE
  deriving DecidableEq, Repr

/-- The numeric value of the enumerator (lower ordinal = more severe). -/
def Level.toNat : Level → Nat
  | .CRITICAL => 0
  | .ERROR => 1
  | .WARNING => 2
  | .INFO => 3
  | .DEBUG => 4
  | .TRACE => 5

/-- `levelStr` from Logger.cpp. -/
def levelStr : Level → List Char
  | .CRITICAL => ("CRITICAL").data
  | .ERROR => ("ERROR").data
  | .WARNING => ("WARNING").data
  | .INFO => ("INFO").data
  | .DEBUG => ("DEBUG").data
  | .TRACE => ("TRACE").data

/-- `colorStr` from Logger.cpp: the ANSI color escape chosen per severity. -/
def colorStr : Level → List Char
  | .CRITICAL => ("\x1b[31;1m").data
  | .ERROR => ("\x1b[31m").data
  | .WARNING => ("\x1b[33m").data
  | .INFO => ("").data
  | .DEBUG => ("\x1b[2m").data
  | .TRACE => ("\x1b[2;3m").data

/-- `resetColor()` from Logger.cpp. -/
def resetColor : List Char := ("\x1b[0m").data

/-- `LEVEL_FMT_WIDTH` from Logger.cpp. -/
def LEVEL_FMT_WIDTH : Nat := 8

/-- `TIME_FMT_WIDTH` from Logger.cpp. -/
def TIME_FMT_WIDTH : Nat := 25

/-- `FULL_LOG_WIDTH` from Logger.cpp. -/
def FULL_LOG_WIDTH : Nat := 100

/-- A `log::Line`: the metadata captured at the call site plus the
accumulated message buffer (`m_stream.str()`), as read by `Worker::log`.
`file` holds the directory-stripped source file name that the `Line`
constructor stores. -/
structure Line where
  level : Level
  file : String
  line : Int
  func : String
  msg : List Char
  deriving DecidableEq, Repr

/-- A `log::Worker` as stored in `Manager::m_workers`.  `streamGood` models
`m_stream && m_stream->good()`: it is `false` for console workers (whose
`m_stream` is `nullptr`) and records the health of the opened `ofstream`
for file workers. -/
structure Worker where
  path : String
  level : Level
  streamGood : Bool
  deriving DecidableEq, Repr

/-- `Worker::console()`: true iff `m_path` is empty. -/
def Worker.console (w : Worker) : Bool := w.path = ""

/-- `Worker::good()`:
`(m_path.empty() && std::cout.good()) || (m_stream && m_stream->good())`. -/
def Worker.good (w : Worker) (coutGood : Bool) : Bool :=
  (w.console && coutGood) || w.streamGood

/-- External environment: health of `std::cout` and, per file path, whether
opening an `std::ofstream` on it succeeds (stream good after open). -/
structure Env where
  coutGood : Bool
  openOk : String → Bool

/-- Model of `std::quoted` applied to a path streamed with `operator<<`:
the text is wrapped in double quotes, with embedded `"` and `\` escaped. -/
def quotePath (p : String) : List Char :=
  ('"') :: (p.data.foldr
    (fun c acc => (if c = '"' ∨ c = '\\' then ['\\', c] else [c]) ++ acc) []) ++ ['"']

/-- The `while (msg.back() == '\n') msg.pop_back();` loop of `Worker::log`,
acting on the reversed character list.  `none` means the loop reads
`back()` of an empty string (out-of-bounds access, undefined behaviour). -/
def stripRev : List Char → Option (List Char)
  | [] => none
  | c :: cs => if c = '\n' then stripRev cs else some (c :: cs)

/-- Trailing-newline stripping of `Worker::log` (Logger.cpp lines 133-134).
`none` models the out-of-bounds `back()` on an empty string. -/
def stripTrailingNewlines (msg : List Char) : Option (List Char) :=
  (stripRev msg.reverse).map List.reverse

/-- One iteration of the segment loop of `Worker::log`: the prefix of the
message up to and including the first newline (the loop writes
`msg.substr(start, end - start + 1)`), together with the remainder after
that newline. -/
def breakLine : List Char → List Char × List Char
  | [] => ([], [])
  | c :: cs =>
    if c = '\n' then ([c], cs)
    else
      let p := breakLine cs
      (c :: p.1, p.2)

/-- The continuation-line indentation written by `Worker::log`:
`std::string(TIME_FMT_WIDTH + LEVEL_FMT_WIDTH + 3, ' ') << " -> "`. -/
def contIndent : List Char :=
  List.replicate (TIME_FMT_WIDTH + LEVEL_FMT_WIDTH + 3) ' ' ++ (" -> ").data

/-- The segment loop of `Worker::log` (Logger.cpp lines 135-142): writes the
current segment (including its newline), prefixing every segment but the
first with `cp` (the continuation indentation). -/
def renderMsg (cp : List Char) (isFirst : Bool) (l : List Char) : List Char :=
  if h : l = [] then []
  else (if isFirst then [] else cp) ++ (breakLine l).1 ++ renderMsg cp false (breakLine l).2
termination_by l.length
decreasing_by
  have key : ∀ m : List Char, m ≠ [] → (breakLine m).2.length < m.length := by
    intro m
    induction m with
    | nil => intro hm; exact absurd rfl hm
    | cons c cs ih =>
      intro _
      by_cases hc : c = '\n'
      · simp [breakLine, hc]
      · rcases Decidable.em (cs = []) with hcs | hcs
        · subst hcs; simp [breakLine, hc]
        · have := ih hcs
          simp only [breakLine, if_neg hc]
          exact Nat.lt_trans this (Nat.lt_succ_self _)
  exact key l h

/-- The logical lines of a message: the maximal newline-free segments
obtained by splitting at every `'\n'` (specification-side description used
to state the multi-line rendering property). -/
def splitLines : List Char → List (List Char)
  | [] => [[]]
  | c :: cs =>
    if c = '\n' then [] :: splitLines cs
    else
      match splitLines cs with
      | [] => [[c]]
      | l :: ls => (c :: l) :: ls

/-- `std::setw(LEVEL_FMT_WIDTH)`: right-justify by left-padding with spaces. -/
def padLevel (s : List Char) : List Char :=
  List.replicate (LEVEL_FMT_WIDTH - s.length) ' ' ++ s

/-- The location/metadata head of a formatted entry (Logger.cpp lines
131-132): timestamp, padded level tag, file, line and function. -/
def header (ts : String) (l : Line) : List Char :=
  ts.data ++ (" | [").data ++ padLevel (levelStr l.level) ++ ("] ").data ++
    l.file.data ++ (":").data ++ (toString l.line).data ++ (" in ").data ++
    l.func.data ++ ("(): ").data

/-- The full byte output `Worker::log` produces for one accepted event whose
stripped message is `m`; color codes only for console workers. -/
def format (isConsole : Bool) (ts : String) (l : Line) (m : List Char) : List Char :=
  (if isConsole then colorStr l.level else []) ++ header ts l ++
    renderMsg contIndent true m ++
    (if isConsole then resetColor else []) ++ ['\n']

/-- Result of one `Worker::log` call: filtered out, out-of-bounds string
access (undefined behaviour), or the bytes written to the sink. -/
inductive LogResult where
  | skipped
  | oob
  | wrote (out : List Char)
  deriving DecidableEq, Repr

/-- `Worker::log` (Logger.cpp lines 128-145).  `coutGood` is the current
health of `std::cout`; `ts` the value `timeStr()` returns during the call. -/
def Worker.log (w : Worker) (coutGood : Bool) (ts : String) (l : Line) : LogResult :=
  if !(w.good coutGood) || decide (Level.toNat w.level < Level.toNat l.level) then
    .skipped
  else
    match stripTrailingNewlines l.msg with
    | none => .oob
    | some m => .wrote (format w.console ts l m)

/-- `Manager::log`: dispatches the line to every registered worker in
registration order (each worker's write result, in order). -/
def Manager.log (env : Env) (ts : String) (st : List Worker) (l : Line) : List LogResult :=
  st.map (fun w => w.log env.coutGood ts l)

/-- The update loop of `Manager::addWorker`: sets the level of the first
worker whose path matches and stops; `none` if no worker matches. -/
def updateFirst (p : String) (lvl : Level) : List Worker → Option (List Worker)
  | [] => none
  | w :: ws =>
    if w.path = p then some ({ w with level := lvl } :: ws)
    else (updateFirst p lvl ws).map (w :: ·)

/-- The worker value the `Worker` constructor produces (state component only;
the filesystem effects of the constructor are modelled by
`constructWorker`).  A console worker has no stream (`streamGood = false`);
a file worker's stream is good iff opening the path succeeded. -/
def mkWorker (env : Env) (p : String) (lvl : Level) : Worker :=
  if p = "" then ⟨"", lvl, false⟩ else ⟨p, lvl, env.openOk p⟩

/-- The `Line` built by `LOG(DEBUG)` in `Manager::addWorker`
(Logger.cpp lines 108-109). -/
def addedLine (p : String) (lvl : Level) : Line :=
  ⟨.DEBUG, "Logger.cpp", 108, "addWorker",
    ("Added log worker at ").data ++ quotePath (if p = "" then "console" else p) ++
      (" (level: ").data ++ levelStr lvl ++ (")").data⟩

/-- The `Line` built by `LOG(DEBUG)` in `Manager::removeWorker`
(Logger.cpp line 113). -/
def removeLine (p : String) : Line :=
  ⟨.DEBUG, "Logger.cpp", 113, "removeWorker",
    ("Removing log worker at ").data ++ quotePath (if p = "" then "console" else p)⟩

/-- `Manager::addWorker` (Logger.cpp lines 96-110).  Returns the new worker
list and the per-worker results of dispatching the `Added log worker`
announcement, which happens after the lock is released (so it is dispatched
to the post-update list).  When a matching identity exists the function
returns from inside the lock and no announcement is dispatched.
`Except.error ()` models the path on which the `Worker` constructor's
`LOG(WARNING)` (failed file open, Logger.cpp line 79) dispatches through
`Manager::log` and relocks the mutex the calling thread already holds:
undefined behaviour (self-deadlock), the call never returns. -/
def addWorker (env : Env) (ts : String) (p : String) (lvl : Level)
    (st : List Worker) : Except Unit (List Worker × List LogResult) :=
  match updateFirst p lvl st with
  | some st' => .ok (st', [])
  | none =>
    let w := mkWorker env p lvl
    if p ≠ "" ∧ w.streamGood = false then .error ()
    else
      let st' := if w.good env.coutGood then st ++ [w] else st
      .ok (st', Manager.log env ts st' (addedLine p lvl))

/-- The erase loop of `Manager::removeWorker`: removes the first worker whose
path matches (then breaks); the list is unchanged if none matches. -/
def eraseFirst (p : String) : List Worker → List Worker
  | [] => []
  | w :: ws => if w.path = p then ws else w :: eraseFirst p ws

/-- `Manager::removeWorker` (Logger.cpp lines 112-121).  The `LOG(DEBUG)`
announcement is a full expression before the lock is taken, so it is
dispatched to the pre-removal worker list; the erase happens afterwards. -/
def removeWorker (env : Env) (ts : String) (p : String) (st : List Worker) :
    List LogResult × List Worker :=
  (Manager.log env ts st (removeLine p), eraseFirst p st)

/-- One external call on the `Manager`. -/
inductive Op where
  | add (p : String) (lvl : Level)
  | remove (p : String)
  | log (l : Line)

/-- Effect of one call on the worker list (`Manager::log` never mutates it). -/
def step (env : Env) (ts : String) (st : List Worker) : Op → Except Unit (List Worker)
  | .add p lvl => (addWorker env ts p lvl st).map Prod.fst
  | .remove p => .ok (removeWorker env ts p st).2
  | .log _ => .ok st

/-- Runs a sequence of calls from a given worker list, stopping at the first
undefined-behaviour path. -/
def run (env : Env) (ts : String) : List Op → List Worker → Except Unit (List Worker)
  | [], st => .ok st
  | op :: ops, st =>
    match step env ts st op with
    | .error e => .error e
    | .ok st' => run env ts ops st'

/-- Abstract filesystem state: existing directories and file contents. -/
structure FS where
  dirs : List String
  files : List (String × List Char)

/-- `std::filesystem::exists`. -/
def pathExists (fs : FS) (p : String) : Bool :=
  fs.files.any (fun e => e.1 = p) || fs.dirs.contains p

/-- `path.has_parent_path()` for the `/`-separated string model. -/
def hasParentPath (p : String) : Bool := p.data.contains '/'

/-- `path.parent_path()`: everything before the last `/`. -/
def parentPath (p : String) : String :=
  String.mk (((p.data.reverse.dropWhile (fun c => c ≠ '/')).drop 1).reverse)

/-- The directory together with its ancestor chain, all of which
`std::filesystem::create_directories` brings into existence. -/
def ancestors (p : String) : List String :=
  if h : p.data.contains '/' = true then p :: ancestors (parentPath p) else [p]
termination_by p.data.length
decreasing_by
  have hne : p.data ≠ [] := by
    intro hnil
    rw [hnil] at h
    exact absurd h (by decide)
  have hdw : ∀ (l : List Char), (l.dropWhile (fun c => c ≠ '/')).length ≤ l.length := by
    intro l
    induction l with
    | nil => simp
    | cons a l ih =>
      by_cases ha : a = '/'
      · simp [List.dropWhile_cons, ha]
      · simp only [List.dropWhile_cons, decide_eq_true_eq]
        split <;> simp_all <;> omega
  have h1 : (p.data.reverse.dropWhile (fun c => c ≠ '/')).length ≤ p.data.length := by
    calc (p.data.reverse.dropWhile (fun c => c ≠ '/')).length
        ≤ p.data.reverse.length := hdw _
      _ = p.data.length := List.length_reverse _
  have h2 : (parentPath p).data.length
      = (p.data.reverse.dropWhile (fun c => c ≠ '/')).length - 1 := by
    simp [parentPath]
  have h3 : 0 < p.data.length := List.length_pos.mpr hne
  omega

/-- `std::filesystem::create_directories`. -/
def createDirectories (fs : FS) (d : String) : FS :=
  { fs with dirs := ancestors d ++ fs.dirs }

/-- Opening an `std::ofstream` in `std::ios::app` mode: creates the file when
absent and positions at the end (existing contents kept). -/
def openAppend (fs : FS) (p : String) : FS :=
  if fs.files.any (fun e => e.1 = p) then fs
  else { fs with files := (p, []) :: fs.files }

/-- Appending bytes to an open file. -/
def fsAppend (fs : FS) (p : String) (s : List Char) : FS :=
  { fs with files := fs.files.map (fun e => if e.1 = p then (e.1, e.2 ++ s) else e) }

/-- Current contents of a file (empty if the file does not exist). -/
def lookupFile (fs : FS) (p : String) : List Char :=
  match fs.files.find? (fun e => e.1 = p) with
  | some e => e.2
  | none => []

/-- The session-separator block the `Worker` constructor writes on a
successful open (Logger.cpp lines 81-84): a blank line, a dashed rule, and
a timestamped header line. -/
def separator (ts : String) : List Char :=
  ('\n') :: (List.replicate TIME_FMT_WIDTH '-' ++
    ('\n') :: (ts.data ++ (" | ").data ++
      List.replicate (FULL_LOG_WIDTH - TIME_FMT_WIDTH - 1) '-' ++ ['\n']))

/-- The `Worker` constructor (Logger.cpp lines 69-86) with its filesystem
effects: for a file path, create missing parent directories when the path
does not exist, open the file in append mode, and on success write the
session separator.  (The failed-open `LOG(WARNING)` path is handled at the
`addWorker` level, where it relocks the held mutex.) -/
def constructWorker (env : Env) (ts : String) (fs : FS) (p : String) (lvl : Level) :
    Worker × FS :=
  if p = "" then (⟨"", lvl, false⟩, fs)
  else
    let fs1 := if ¬ pathExists fs p ∧ hasParentPath p then
        createDirectories fs (parentPath p)
      else fs
    if env.openOk p then
      let fs2 := openAppend fs1 p
      (⟨p, lvl, true⟩, fsAppend fs2 p (separator ts))
    else (⟨p, lvl, false⟩, fs1)

/-- Environment in which every file open succeeds and `std::cout` is good. -/
def envT : Env := ⟨true, fun _ => true⟩

/-- Environment in which every file open fails and `std::cout` is good. -/
def envF : Env := ⟨true, fun _ => false⟩

/-- Environment in which `std::cout` is unhealthy but file opens succeed. -/
def envB : Env := ⟨false, fun _ => true⟩

/-- Claim C1: a registered Worker with threshold `T` forwards (formats and
writes, i.e. passes the guard at Logger.cpp line 129 rather than returning
early) a dispatched event at severity `S` iff the Worker is healthy and the
ordinal of `S` is at most the ordinal of `T`; hence a Worker with threshold
`S2` forwards exactly the severities at least as urgent as `S2`. -/
theorem C1_worker_forwards_iff (w : Worker) (coutGood : Bool) (ts : String) (l : Line) :
    Worker.log w coutGood ts l ≠ .skipped ↔
      (w.good coutGood = true ∧ Level.toNat l.level ≤ Level.toNat w.level) := by
  by_cases hg : w.good coutGood = true
  · by_cases hl : Level.toNat l.level ≤ Level.toNat w.level
    · have hnl : ¬ Level.toNat w.level < Level.toNat l.level := Nat.not_lt.mpr hl
      cases hs : stripTrailingNewlines l.msg <;>
        simp [Worker.log, hg, hnl, hl, hs]
    · have hwl : Level.toNat w.level < Level.toNat l.level := Nat.not_le.mp hl
      simp [Worker.log, hg, hwl, hl]
  · simp [Worker.log, hg]

/-- Helper: erasing a path that matches no worker leaves the list unchanged. -/
theorem eraseFirst_of_not_mem (p : String) :
    ∀ st : List Worker, (∀ w ∈ st, w.path ≠ p) → eraseFirst p st = st := by
  intro st
  induction st with
  | nil => intro _; rfl
  | cons w ws ih =>
    intro h
    have hw : w.path ≠ p := h w (List.mem_cons_self w ws)
    simp only [eraseFirst, if_neg hw]
    rw [ih (fun u hu => h u (List.mem_cons_of_mem w hu))]

/-- Claim C6: when no registered Worker matches the identity, `removeWorker`
leaves the worker collection exactly as it was. -/
theorem C6_remove_absent_noop (env : Env) (ts : String) (p : String)
    (st : List Worker) (h : ∀ w ∈ st, w.path ≠ p) :
    (removeWorker env ts p st).2 = st :=
  eraseFirst_of_not_mem p st h

/-- Witness for C6 at a concrete state. -/
theorem C6_witness :
    (∀ w ∈ ([⟨"", Level.INFO, false⟩] : List Worker), w.path ≠ "x") ∧
      (removeWorker envT "TS" "x" [⟨"", Level.INFO, false⟩]).2 =
        [⟨"", Level.INFO, false⟩] :=
  ⟨by decide, C6_remove_absent_noop envT "TS" "x" _ (by decide)⟩

/-- Counterexample to claim C9 as stated: for a forwarded event whose
accumulated message is empty (or consists only of newline characters) the
stripping loop `while (msg.back() == '\n')` of `Worker::log` reads
`back()` of an empty string — an out-of-bounds access, contradicting the
claim that `back()` is never called on an empty string.  The model
evaluates to `.oob` at both failing inputs. -/
theorem C9_empty_message_oob :
    Worker.log ⟨"", Level.INFO, false⟩ true "TS" ⟨Level.INFO, "f.ext", 42, "func", []⟩
        = .oob ∧
      Worker.log ⟨"", Level.INFO, false⟩ true "TS"
        ⟨Level.INFO, "f.ext", 42, "func", ['\n', '\n']⟩ = .oob :=
  ⟨rfl, rfl⟩

/-- Counterexample to claim C3 as stated: `addWorker` on a fresh file
identity whose open fails never returns — the `Worker` constructor's
`LOG(WARNING)` dispatches through `Manager::log`, relocking the mutex the
calling thread already holds (undefined behaviour / self-deadlock),
modelled as `.error ()`.  The claimed non-fatal return, discard, and
warning through the remaining Workers never happen. -/
theorem C3_failed_open_self_lock :
    addWorker envF "TS" "logs/app.txt" Level.INFO [] = .error () := rfl

/-- Counterexample to claim C10 as stated: re-adding an existing console
identity only updates the threshold and returns from inside the lock, so
no `Added log worker` announcement is dispatched (the announcement list is
empty). -/
theorem C10_counterexample :
    addWorker envT "TS" "" Level.DEBUG [⟨"", Level.INFO, false⟩] =
      .ok ([⟨"", Level.DEBUG, false⟩], []) := rfl

/-- Helper: a message whose last character is not a newline is left intact by
the stripping loop (and in particular the loop is safe on it). -/
theorem strip_append_ne_newline (l : List Char) (c : Char) (hc : c ≠ '\n') :
    stripTrailingNewlines (l ++ [c]) = some (l ++ [c]) := by
  simp [stripTrailingNewlines, List.reverse_append, stripRev, hc]

/-- Helper: an accepted event with an intact message produces exactly the
formatted entry. -/
theorem log_accepts (w : Worker) (cg : Bool) (ts : String) (l : Line)
    (hg : w.good cg = true) (hl : Level.toNat l.level ≤ Level.toNat w.level)
    (hs : stripTrailingNewlines l.msg = some l.msg) :
    Worker.log w cg ts l = .wrote (format w.console ts l l.msg) := by
  have hnl : ¬ Level.toNat w.level < Level.toNat l.level := Nat.not_lt.mpr hl
  simp [Worker.log, hg, hnl, hs]

/-- Helper: inversion of `Worker.log` on a written result. -/
theorem log_wrote_inv (w : Worker) (cg : Bool) (ts : String) (l : Line)
    (o : List Char) (h : Worker.log w cg ts l = .wrote o) :
    ∃ m, stripTrailingNewlines l.msg = some m ∧ o = format w.console ts l m := by
  unfold Worker.log at h
  split at h
  · exact absurd h (by simp)
  · cases hs : stripTrailingNewlines l.msg with
    | none => rw [hs] at h; exact absurd h (by simp)
    | some m =>
      rw [hs] at h
      refine ⟨m, rfl, ?_⟩
      injection h with h
      exact h.symm

/-- Claim C8: formatting is byte-deterministic — two `Worker::log` runs on
Workers of the same kind (console or file), the same timestamp string, and
events with equal severity, file, line, function and message, that both
forward, write byte-identical output. -/
theorem C8_format_deterministic (w1 w2 : Worker) (cg1 cg2 : Bool) (ts : String)
    (l1 l2 : Line) (o1 o2 : List Char)
    (hk : w1.console = w2.console)
    (hlv : l1.level = l2.level) (hfi : l1.file = l2.file)
    (hln : l1.line = l2.line) (hfn : l1.func = l2.func) (hms : l1.msg = l2.msg)
    (h1 : Worker.log w1 cg1 ts l1 = .wrote o1)
    (h2 : Worker.log w2 cg2 ts l2 = .wrote o2) : o1 = o2 := by
  have hl : l1 = l2 := by cases l1; cases l2; simp_all
  subst hl
  obtain ⟨m1, hs1, ho1⟩ := log_wrote_inv _ _ _ _ _ h1
  obtain ⟨m2, hs2, ho2⟩ := log_wrote_inv _ _ _ _ _ h2
  rw [hs1] at hs2
  injection hs2 with hm
  rw [ho1, ho2, hk, hm]

/-- Witness for C8: a console worker (threshold INFO, via live `cout`) and a
file worker masquerading check removed — here two console-kind workers with
different thresholds and different `cout` health sources produce the same
bytes for field-equal events. -/
theorem C8_witness :
    ∃ o1 o2,
      Worker.log ⟨"", Level.INFO, false⟩ true "TS"
          ⟨Level.INFO, "f.ext", 42, "func", ("hi").data⟩ = .wrote o1 ∧
        Worker.log ⟨"", Level.TRACE, true⟩ false "TS"
          ⟨Level.INFO, "f.ext", 42, "func", ("hi").data⟩ = .wrote o2 ∧
        o1 = o2 := by
  have h1 : Worker.log ⟨"", Level.INFO, false⟩ true "TS"
      ⟨Level.INFO, "f.ext", 42, "func", ("hi").data⟩ =
        .wrote (format true "TS" ⟨Level.INFO, "f.ext", 42, "func", ("hi").data⟩
          ("hi").data) := rfl
  have h2 : Worker.log ⟨"", Level.TRACE, true⟩ false "TS"
      ⟨Level.INFO, "f.ext", 42, "func", ("hi").data⟩ =
        .wrote (format true "TS" ⟨Level.INFO, "f.ext", 42, "func", ("hi").data⟩
          ("hi").data) := rfl
  exact ⟨_, _, h1, h2,
    C8_format_deterministic ⟨"", Level.INFO, false⟩ ⟨"", Level.TRACE, true⟩ true false
      "TS" _ _ _ _ rfl rfl rfl rfl rfl rfl h1 h2⟩

/-- Helper: erasing a present path shortens the list by exactly one. -/
theorem eraseFirst_length (p : String) :
    ∀ st : List Worker, (∃ w ∈ st, w.path = p) →
      (eraseFirst p st).length + 1 = st.length := by
  intro st
  induction st with
  | nil => rintro ⟨w, hw, -⟩; exact absurd hw (List.not_mem_nil w)
  | cons w ws ih =>
    rintro ⟨u, hu, hup⟩
    by_cases hw : w.path = p
    · simp [eraseFirst, hw]
    · have hu' : u ∈ ws := by
        rcases List.mem_cons.mp hu with h | h
        · exact absurd (h ▸ hup) hw
        · exact h
      simp only [eraseFirst, if_neg hw, List.length_cons]
      rw [ih ⟨u, hu', hup⟩]

/-- Claim C5: `removeWorker` dispatches its DEBUG announcement to the
pre-removal worker list before erasing, so the matching Worker — if healthy
and accepting DEBUG — receives the announcement of its own removal, and is
then erased (the list shrinks by one). -/
theorem C5_removal_announced_first (env : Env) (ts : String) (p : String)
    (st : List Worker) (i : Nat) (hi : i < st.length)
    (hp : (st.get ⟨i, hi⟩).path = p)
    (hg : (st.get ⟨i, hi⟩).good env.coutGood = true)
    (hl : Level.toNat Level.DEBUG ≤ Level.toNat (st.get ⟨i, hi⟩).level) :
    (∃ out, (removeWorker env ts p st).1.get? i = some (.wrote out)) ∧
      (removeWorker env ts p st).2.length + 1 = st.length := by
  have hX : (removeLine p).msg =
      (("Removing log worker at ").data ++
        ('"' :: ((if p = "" then "console" else p).data.foldr
          (fun c acc => (if c = '"' ∨ c = '\\' then ['\\', c] else [c]) ++ acc) []))) ++
        ['"'] := by
    simp [removeLine, quotePath]
  have hstrip : stripTrailingNewlines (removeLine p).msg = some (removeLine p).msg := by
    rw [hX]; exact strip_append_ne_newline _ _ (by decide)
  constructor
  · refine ⟨format (st.get ⟨i, hi⟩).console ts (removeLine p) (removeLine p).msg, ?_⟩
    show (Manager.log env ts st (removeLine p)).get? i = _
    rw [Manager.log, List.get?_map, List.get?_eq_get hi]
    simp only [Option.map_some']
    rw [log_accepts _ _ _ _ hg hl hstrip]
  · exact eraseFirst_length p st ⟨st.get ⟨i, hi⟩, List.get_mem st i hi, hp⟩

/-- Witness for C5: a healthy console worker at threshold TRACE observes the
DEBUG announcement of its own removal, and is then erased. -/
theorem C5_witness :
    ((([⟨"", Level.TRACE, false⟩] : List Worker).get ⟨0, Nat.one_pos⟩).path = "") ∧
      ((([⟨"", Level.TRACE, false⟩] : List Worker).get ⟨0, Nat.one_pos⟩).good
        envT.coutGood = true) ∧
      (Level.toNat Level.DEBUG ≤
        Level.toNat (([⟨"", Level.TRACE, false⟩] : List Worker).get
          ⟨0, Nat.one_pos⟩).level) ∧
      ((∃ out, (removeWorker envT "TS" "" [⟨"", Level.TRACE, false⟩]).1.get? 0 =
          some (.wrote out)) ∧
        (removeWorker envT "TS" "" [⟨"", Level.TRACE, false⟩]).2.length + 1 = 1) :=
  ⟨rfl, rfl, by decide,
    C5_removal_announced_first envT "TS" "" [⟨"", Level.TRACE, false⟩] 0
      Nat.one_pos rfl rfl (by decide)⟩

/-- Helper: when some worker matches, the update loop of `addWorker` finds the
first match and replaces only its level, in place. -/
theorem updateFirst_of_mem (p : String) (lvl : Level) :
    ∀ st : List Worker, (∃ w ∈ st, w.path = p) →
      ∃ pre w post, st = pre ++ w :: post ∧ (∀ u ∈ pre, u.path ≠ p) ∧ w.path = p ∧
        updateFirst p lvl st = some (pre ++ { w with level := lvl } :: post) := by
  intro st
  induction st with
  | nil => rintro ⟨w, hw, -⟩; exact absurd hw (List.not_mem_nil w)
  | cons w ws ih =>
    rintro ⟨u, hu, hup⟩
    by_cases hw : w.path = p
    · exact ⟨[], w, ws, rfl, by simp, hw, by simp [updateFirst, hw]⟩
    · have hu' : u ∈ ws := by
        rcases List.mem_cons.mp hu with h | h
        · exact absurd (h ▸ hup) hw
        · exact h
      obtain ⟨pre, w0, post, hst, hpre, hw0, hupd⟩ := ih ⟨u, hu', hup⟩
      refine ⟨w :: pre, w0, post, by rw [hst]; rfl, ?_, hw0, ?_⟩
      · intro v hv
        rcases List.mem_cons.mp hv with h | h
        · exact h ▸ hw
        · exact hpre v h
      · simp [updateFirst, hw, hupd]

/-- Helper: the update loop fails exactly on lists with no matching path. -/
theorem updateFirst_none (p : String) (lvl : Level) :
    ∀ st : List Worker, updateFirst p lvl st = none → ∀ w ∈ st, w.path ≠ p := by
  intro st
  induction st with
  | nil => intro _ w hw; exact absurd hw (List.not_mem_nil w)
  | cons w ws ih =>
    intro h u hu
    by_cases hw : w.path = p
    · simp [updateFirst, hw] at h
    · simp only [updateFirst, if_neg hw, Option.map_eq_none'] at h
      rcases List.mem_cons.mp hu with hc | hc
      · exact hc ▸ hw
      · exact ih h u hc

/-- Helper: the update loop never changes the sequence of paths. -/
theorem updateFirst_paths (p : String) (lvl : Level) :
    ∀ st st' : List Worker, updateFirst p lvl st = some st' →
      st'.map (fun w => w.path) = st.map (fun w => w.path) := by
  intro st
  induction st with
  | nil => intro st' h; exact absurd h (by simp [updateFirst])
  | cons w ws ih =>
    intro st' h
    by_cases hw : w.path = p
    · simp only [updateFirst, if_pos hw, Option.some_inj] at h
      subst h; simp
    · simp only [updateFirst, if_neg hw] at h
      obtain ⟨ws', hws', rfl⟩ := Option.map_eq_some'.mp h
      simp [ih ws' hws']

/-- Helper: the path stored in a freshly constructed worker is its identity. -/
theorem mkWorker_path (env : Env) (p : String) (lvl : Level) :
    (mkWorker env p lvl).path = p := by
  unfold mkWorker
  split
  · next h => exact h.symm
  · rfl

/-- Helper: the erase loop yields a sublist of the original worker list. -/
theorem eraseFirst_sublist (p : String) :
    ∀ st : List Worker, List.Sublist (eraseFirst p st) st := by
  intro st
  induction st with
  | nil => exact List.Sublist.refl _
  | cons w ws ih =>
    by_cases hw : w.path = p
    · simpa [eraseFirst, hw] using List.sublist_cons_self w ws
    · simpa [eraseFirst, hw] using List.Sublist.cons₂ w ih

/-- Helper: each `Manager` call preserves distinctness of worker paths. -/
theorem step_nodup (env : Env) (ts : String) (st : List Worker) (op : Op)
    (st' : List Worker) (hinv : (st.map (fun w => w.path)).Nodup)
    (h : step env ts st op = .ok st') : (st'.map (fun w => w.path)).Nodup := by
  cases op with
  | add p lvl =>
    simp only [step] at h
    unfold addWorker at h
    cases hupd : updateFirst p lvl st with
    | some stU =>
      rw [hupd] at h
      simp only [Except.map] at h
      injection h with h
      subst h
      rw [updateFirst_paths p lvl st stU hupd]
      exact hinv
    | none =>
      rw [hupd] at h
      by_cases hfail : p ≠ "" ∧ (mkWorker env p lvl).streamGood = false
      · rw [if_pos hfail] at h
        exact absurd h (by simp [Except.map])
      · rw [if_neg hfail] at h
        simp only [Except.map] at h
        injection h with h
        by_cases hgood : (mkWorker env p lvl).good env.coutGood = true
        · rw [if_pos hgood] at h
          subst h
          have hnp : ∀ w ∈ st, w.path ≠ p := updateFirst_none p lvl st hupd
          have hnotmem : p ∉ st.map (fun w => w.path) := by
            intro hmem
            obtain ⟨w, hw, hwp⟩ := List.mem_map.mp hmem
            exact hnp w hw hwp
          simp [List.nodup_append, hinv, mkWorker_path, hnotmem]
        · rw [if_neg (by simpa using hgood)] at h
          subst h
          exact hinv
  | remove p =>
    simp only [step, removeWorker] at h
    injection h with h
    subst h
    exact List.Sublist.nodup (List.Sublist.map _ (eraseFirst_sublist p st)) hinv
  | log l =>
    simp only [step] at h
    injection h with h
    subst h
    exact hinv

/-- Helper: any successful run from a path-distinct state ends in one. -/
theorem run_nodup (env : Env) (ts : String) :
    ∀ (ops : List Op) (st st' : List Worker),
      (st.map (fun w => w.path)).Nodup → run env ts ops st = .ok st' →
        (st'.map (fun w => w.path)).Nodup := by
  intro ops
  induction ops with
  | nil =>
    intro st st' hinv h
    simp only [run] at h
    injection h with h
    exact h ▸ hinv
  | cons op ops ih =>
    intro st st' hinv h
    simp only [run] at h
    cases hstep : step env ts st op with
    | error e => rw [hstep] at h; exact absurd h (by simp)
    | ok st1 => rw [hstep] at h; exact ih st1 st' (step_nodup env ts st op st1 hinv hstep) h

/-- Claim C2: re-adding an existing identity updates that Worker's threshold
in place — the list keeps its shape, no new Worker or Sink is constructed,
the matched Worker keeps its path and stream and gets the latest threshold,
and no announcement is dispatched — and every sequence of `addWorker`,
`removeWorker` and `log` calls from the initial empty state preserves the
at-most-one-Worker-per-identity invariant (distinctness of stored paths). -/
theorem C2_dedup_invariant (env : Env) (ts : String) (p : String) (lvl : Level)
    (st : List Worker) (hmem : ∃ w ∈ st, w.path = p) :
    (∃ pre w post, st = pre ++ w :: post ∧ (∀ u ∈ pre, u.path ≠ p) ∧ w.path = p ∧
        addWorker env ts p lvl st = .ok (pre ++ { w with level := lvl } :: post, [])) ∧
      (∀ ops st', run env ts ops [] = .ok st' → (st'.map (fun w => w.path)).Nodup) := by
  constructor
  · obtain ⟨pre, w, post, hst, hpre, hw, hupd⟩ := updateFirst_of_mem p lvl st hmem
    exact ⟨pre, w, post, hst, hpre, hw, by simp [addWorker, hupd]⟩
  · intro ops st' h
    exact run_nodup env ts ops [] st' (by simp) h

/-- Witness for C2: updating the console worker's threshold in place, and the
path-distinctness of the state reached by an add/add/remove run. -/
theorem C2_witness :
    (∃ w ∈ ([⟨"", Level.INFO, false⟩] : List Worker), w.path = "") ∧
      (∃ pre w post,
        ([⟨"", Level.INFO, false⟩] : List Worker) = pre ++ w :: post ∧
          (∀ u ∈ pre, u.path ≠ "") ∧ w.path = "" ∧
          addWorker envT "TS" "" Level.TRACE [⟨"", Level.INFO, false⟩] =
            .ok (pre ++ { w with level := Level.TRACE } :: post, [])) ∧
      ((([⟨"f", Level.DEBUG, true⟩] : List Worker)).map (fun w => w.path)).Nodup := by
  have hmem : ∃ w ∈ ([⟨"", Level.INFO, false⟩] : List Worker), w.path = "" :=
    ⟨⟨"", Level.INFO, false⟩, by simp, rfl⟩
  have h := C2_dedup_invariant envT "TS" "" Level.TRACE _ hmem
  exact ⟨hmem, h.1,
    h.2 [.add "" Level.INFO, .add "f" Level.DEBUG, .remove ""]
      [⟨"f", Level.DEBUG, true⟩] rfl⟩

/-- Helper: the update loop fails on lists with no matching path. -/
theorem updateFirst_none_of (p : String) (lvl : Level) :
    ∀ st : List Worker, (∀ w ∈ st, w.path ≠ p) → updateFirst p lvl st = none := by
  intro st
  induction st with
  | nil => intro _; rfl
  | cons w ws ih =>
    intro h
    have hw := h w (List.mem_cons_self w ws)
    simp only [updateFirst, if_neg hw]
    rw [ih (fun u hu => h u (List.mem_cons_of_mem w hu))]
    rfl

/-- Helper: a fresh worker carries the requested threshold. -/
theorem mkWorker_level (env : Env) (p : String) (lvl : Level) :
    (mkWorker env p lvl).level = lvl := by
  unfold mkWorker
  split <;> rfl

/-- Helper: the announcement message of `addWorker` ends in `)` and so
survives stripping intact. -/
theorem strip_addedLine (p : String) (lvl : Level) :
    stripTrailingNewlines (addedLine p lvl).msg = some (addedLine p lvl).msg := by
  have h : (addedLine p lvl).msg =
      (("Added log worker at ").data ++ quotePath (if p = "" then "console" else p) ++
        (" (level: ").data ++ levelStr lvl) ++ [')'] := rfl
  rw [h]
  exact strip_append_ne_newline _ _ (by decide)

/-- Claim C10, amended: `addWorker` dispatches the `Added log worker`
announcement only when no Worker with the identity existed at call time —
a threshold-update call returns from inside the lock without dispatching
anything, and a failed file open never reaches the announcement because the
constructor's warning self-dispatch relocks the held mutex.  When a fresh
Worker is constructed and healthy, the announcement is dispatched after the
lock is released to the post-insertion list, so the new Worker receives it
whenever its threshold admits DEBUG. -/
theorem C10_amended (env : Env) (ts : String) (p : String) (lvl : Level)
    (st : List Worker) :
    ((∃ w ∈ st, w.path = p) → ∃ st', addWorker env ts p lvl st = .ok (st', [])) ∧
      ((∀ w ∈ st, w.path ≠ p) → p ≠ "" → env.openOk p = false →
        addWorker env ts p lvl st = .error ()) ∧
      ((∀ w ∈ st, w.path ≠ p) → (mkWorker env p lvl).good env.coutGood = true →
        addWorker env ts p lvl st =
            .ok (st ++ [mkWorker env p lvl],
              Manager.log env ts (st ++ [mkWorker env p lvl]) (addedLine p lvl)) ∧
          (Level.toNat Level.DEBUG ≤ Level.toNat lvl →
            ∃ out, (Manager.log env ts (st ++ [mkWorker env p lvl])
              (addedLine p lvl)).get? st.length = some (.wrote out))) := by
  refine ⟨?_, ?_, ?_⟩
  · intro hmem
    obtain ⟨pre, w, post, hst, hpre, hw, hupd⟩ := updateFirst_of_mem p lvl st hmem
    exact ⟨pre ++ { w with level := lvl } :: post, by simp [addWorker, hupd]⟩
  · intro hnone hp hopen
    have hupd := updateFirst_none_of p lvl st hnone
    have hsg : (mkWorker env p lvl).streamGood = false := by
      unfold mkWorker
      rw [if_neg hp]
      exact hopen
    simp [addWorker, hupd, hsg, hp]
  · intro hnone hgood
    have hupd := updateFirst_none_of p lvl st hnone
    have hnofail : ¬ (p ≠ "" ∧ (mkWorker env p lvl).streamGood = false) := by
      rintro ⟨hp, hsg⟩
      have hcons : (mkWorker env p lvl).console = false := by
        unfold mkWorker Worker.console
        rw [if_neg hp]
        simp [hp]
      have hbad : (mkWorker env p lvl).good env.coutGood = false := by
        unfold Worker.good
        rw [hcons, hsg]
        rfl
      rw [hbad] at hgood
      exact Bool.false_ne_true hgood
    constructor
    · simp [addWorker, hupd, hnofail, hgood]
    · intro hdl
      have hlvl : Level.toNat (addedLine p lvl).level ≤
          Level.toNat (mkWorker env p lvl).level := by
        simpa [addedLine, mkWorker_level] using hdl
      refine ⟨format (mkWorker env p lvl).console ts (addedLine p lvl)
        (addedLine p lvl).msg, ?_⟩
      unfold Manager.log
      rw [List.get?_map, List.get?_concat_length]
      simp only [Option.map_some']
      rw [log_accepts _ _ _ _ hgood hlvl (strip_addedLine p lvl)]

/-- Witness for C10 (amended): a fresh console add at threshold TRACE gets the
post-insertion announcement, and the new worker itself receives it. -/
theorem C10_witness :
    (∀ w ∈ ([] : List Worker), w.path ≠ "") ∧
      (mkWorker envT "" Level.TRACE).good envT.coutGood = true ∧
      addWorker envT "TS" "" Level.TRACE [] =
        .ok ([mkWorker envT "" Level.TRACE],
          Manager.log envT "TS" [mkWorker envT "" Level.TRACE]
            (addedLine "" Level.TRACE)) ∧
      (∃ out, (Manager.log envT "TS" [mkWorker envT "" Level.TRACE]
        (addedLine "" Level.TRACE)).get? 0 = some (.wrote out)) := by
  have h1 : ∀ w ∈ ([] : List Worker), w.path ≠ "" := by simp
  have h2 : (mkWorker envT "" Level.TRACE).good envT.coutGood = true := rfl
  have h := (C10_amended envT "TS" "" Level.TRACE []).2.2 h1 h2
  refine ⟨h1, h2, by simpa using h.1, ?_⟩
  simpa using h.2 (by decide)

/-- Helper: appending to a file does not touch the directory set. -/
theorem dirs_fsAppend (fs : FS) (p : String) (s : List Char) :
    (fsAppend fs p s).dirs = fs.dirs := rfl

/-- Helper: opening a file does not touch the directory set. -/
theorem dirs_openAppend (fs : FS) (p : String) :
    (openAppend fs p).dirs = fs.dirs := by
  unfold openAppend
  split <;> rfl

/-- Helper: a directory is in its own ancestor chain. -/
theorem ancestors_self_mem (d : String) : d ∈ ancestors d := by
  unfold ancestors
  split <;> simp

/-- Helper: after `openAppend` the file exists. -/
theorem any_openAppend (fs : FS) (p : String) :
    ((openAppend fs p).files.any (fun e => e.1 = p)) = true := by
  unfold openAppend
  split
  · next h => exact h
  · simp

/-- Helper: `openAppend` preserves a file's contents (a missing file starts
empty). -/
theorem lookupFile_openAppend (fs : FS) (p : String) :
    lookupFile (openAppend fs p) p = lookupFile fs p := by
  unfold openAppend
  split
  · rfl
  · next hany =>
    have h2 : lookupFile fs p = [] := by
      unfold lookupFile
      cases hf : fs.files.find? (fun e => e.1 = p) with
      | none => rfl
      | some e =>
        exfalso
        have hpe := List.find?_some hf
        have hmem := List.mem_of_find?_eq_some hf
        exact hany (List.any_of_mem hmem hpe)
    rw [h2]
    unfold lookupFile
    rw [List.find?_cons_of_pos _ (by simp)]

/-- Helper: appending bytes to an existing file extends its contents. -/
theorem lookupFile_fsAppend (fs : FS) (p : String) (s : List Char)
    (h : fs.files.any (fun e => e.1 = p) = true) :
    lookupFile (fsAppend fs p s) p = lookupFile fs p ++ s := by
  suffices haux : ∀ L : List (String × List Char), L.any (fun e => e.1 = p) = true →
      (match (L.map (fun e => if e.1 = p then (e.1, e.2 ++ s) else e)).find?
          (fun e => e.1 = p) with
        | some e => e.2
        | none => []) =
      (match L.find? (fun e => e.1 = p) with
        | some e => e.2
        | none => []) ++ s by
    exact haux fs.files h
  intro L hL
  induction L with
  | nil => simp at hL
  | cons e L ih =>
    by_cases he : e.1 = p
    · rw [List.map_cons, if_pos he]
      rw [List.find?_cons_of_pos _ (by simpa using he),
        List.find?_cons_of_pos _ (by simpa using he)]
    · rw [List.map_cons, if_neg he]
      rw [List.find?_cons_of_neg _ (by simpa using he),
        List.find?_cons_of_neg _ (by simpa using he)]
      apply ih
      simpa [he] using hL

/-- Claim C7: constructing a Worker for a file path ensures the parent
directory chain of the path exists, opens the file in append mode
(existing contents kept), and on a successful open writes the
session-separator block — blank line, dashed rule, timestamped header —
before any log lines.  The well-formedness hypothesis says only that a
path that already exists has its parent directory present. -/
theorem C7_file_worker_construction (env : Env) (ts : String) (fs : FS)
    (p : String) (lvl : Level) (hp : p ≠ "") (hok : env.openOk p = true)
    (hwf : pathExists fs p = true → hasParentPath p = true →
      parentPath p ∈ fs.dirs) :
    (constructWorker env ts fs p lvl).1 = ⟨p, lvl, true⟩ ∧
      (hasParentPath p = true →
        parentPath p ∈ (constructWorker env ts fs p lvl).2.dirs) ∧
      lookupFile (constructWorker env ts fs p lvl).2 p =
        lookupFile fs p ++ separator ts := by
  by_cases hc : ¬ pathExists fs p = true ∧ hasParentPath p = true
  · have hcw : constructWorker env ts fs p lvl =
        (⟨p, lvl, true⟩,
          fsAppend (openAppend (createDirectories fs (parentPath p)) p) p
            (separator ts)) := by
      simp [constructWorker, hp, hok, hc]
    rw [hcw]
    refine ⟨rfl, ?_, ?_⟩
    · intro _
      rw [dirs_fsAppend, dirs_openAppend]
      exact List.mem_append_left _ (ancestors_self_mem _)
    · rw [lookupFile_fsAppend _ _ _ (any_openAppend _ _), lookupFile_openAppend]
      rfl
  · have hc' : ¬ (pathExists fs p = false ∧ hasParentPath p = true) := by
      intro h
      exact hc ⟨by simp [h.1], h.2⟩
    have hcw : constructWorker env ts fs p lvl =
        (⟨p, lvl, true⟩, fsAppend (openAppend fs p) p (separator ts)) := by
      simp [constructWorker, hp, hok, hc']
    rw [hcw]
    refine ⟨rfl, ?_, ?_⟩
    · intro hpar
      have hex : pathExists fs p = true := by
        by_contra hne
        exact hc ⟨hne, hpar⟩
      rw [dirs_fsAppend, dirs_openAppend]
      exact hwf hex hpar
    · rw [lookupFile_fsAppend _ _ _ (any_openAppend _ _), lookupFile_openAppend]

/-- Witness for C7: adding a file sink at `logs/app.txt` on an empty
filesystem creates the `logs` directory and the file then contains exactly
the session separator. -/
theorem C7_witness :
    ("logs/app.txt" ≠ "") ∧ envT.openOk "logs/app.txt" = true ∧
      ((constructWorker envT "TS" ⟨[], []⟩ "logs/app.txt" Level.INFO).1 =
          ⟨"logs/app.txt", Level.INFO, true⟩ ∧
        (hasParentPath "logs/app.txt" = true →
          parentPath "logs/app.txt" ∈
            (constructWorker envT "TS" ⟨[], []⟩ "logs/app.txt" Level.INFO).2.dirs) ∧
        lookupFile (constructWorker envT "TS" ⟨[], []⟩ "logs/app.txt" Level.INFO).2
            "logs/app.txt" =
          lookupFile ⟨[], []⟩ "logs/app.txt" ++ separator "TS") :=
  ⟨by decide, rfl,
    C7_file_worker_construction envT "TS" ⟨[], []⟩ "logs/app.txt" Level.INFO
      (by decide) rfl (fun h _ => absurd h (by decide))⟩

/-- Helper: the segment extracted from a nonempty message is nonempty. -/
theorem breakLine_fst_ne_nil (l : List Char) (h : l ≠ []) : (breakLine l).1 ≠ [] := by
  cases l with
  | nil => exact absurd rfl h
  | cons c cs =>
    by_cases hc : c = '\n'
    · simp [breakLine, hc]
    · simp [breakLine, hc]

/-- Helper: a newline-free message is one single segment. -/
theorem breakLine_not_mem (l : List Char) (h : '\n' ∉ l) : breakLine l = (l, []) := by
  induction l with
  | nil => rfl
  | cons c cs ih =>
    have hc : c ≠ '\n' := fun hh => h (hh ▸ List.mem_cons_self c cs)
    have hcs : '\n' ∉ cs := fun hh => h (List.mem_cons_of_mem c hh)
    simp [breakLine, hc, ih hcs]

/-- Helper: a message containing a newline splits into its newline-free head
segment (written including the newline) and the remainder. -/
theorem breakLine_mem (l : List Char) (h : '\n' ∈ l) :
    ∃ a r, '\n' ∉ a ∧ l = a ++ '\n' :: r ∧ breakLine l = (a ++ ['\n'], r) := by
  induction l with
  | nil => exact absurd h (List.not_mem_nil _)
  | cons c cs ih =>
    by_cases hc : c = '\n'
    · subst hc
      exact ⟨[], cs, List.not_mem_nil _, rfl, by simp [breakLine]⟩
    · have hcs : '\n' ∈ cs := by
        rcases List.mem_cons.mp h with hh | hh
        · exact absurd hh.symm hc
        · exact hh
      obtain ⟨a, r, hna, hdec, hbl⟩ := ih hcs
      refine ⟨c :: a, r, ?_, by rw [hdec]; rfl, ?_⟩
      · intro hmem
        rcases List.mem_cons.mp hmem with hh | hh
        · exact hc hh.symm
        · exact hna hh
      · simp [breakLine, hc, hbl]

/-- Helper: splitting always yields at least one component. -/
theorem splitLines_ne_nil (l : List Char) : splitLines l ≠ [] := by
  induction l with
  | nil => simp [splitLines]
  | cons c cs ih =>
    by_cases hc : c = '\n'
    · simp [splitLines, hc]
    · simp only [splitLines, if_neg hc]
      split <;> simp

/-- Helper: a newline-free message is one logical line. -/
theorem splitLines_not_mem (l : List Char) (h : '\n' ∉ l) : splitLines l = [l] := by
  induction l with
  | nil => rfl
  | cons c cs ih =>
    have hc : c ≠ '\n' := fun hh => h (hh ▸ List.mem_cons_self c cs)
    have hcs : '\n' ∉ cs := fun hh => h (List.mem_cons_of_mem c hh)
    simp [splitLines, hc, ih hcs]

/-- Helper: splitting at the first newline peels off the head line. -/
theorem splitLines_decomp (a r : List Char) (h : '\n' ∉ a) :
    splitLines (a ++ '\n' :: r) = a :: splitLines r := by
  induction a with
  | nil => simp [splitLines]
  | cons c a ih =>
    have hc : c ≠ '\n' := fun hh => h (hh ▸ List.mem_cons_self c a)
    have ha : '\n' ∉ a := fun hh => h (List.mem_cons_of_mem c hh)
    rw [List.cons_append]
    simp only [splitLines, if_neg hc, ih ha]

/-- Helper: unfolding the segment loop on the empty message. -/
theorem renderMsg_nil (cp : List Char) (b : Bool) : renderMsg cp b [] = [] := by
  rw [renderMsg]
  rfl

/-- Helper: unfolding one iteration of the segment loop. -/
theorem renderMsg_cons (cp : List Char) (b : Bool) (l : List Char) (h : l ≠ []) :
    renderMsg cp b l =
      (if b then [] else cp) ++ (breakLine l).1 ++ renderMsg cp false (breakLine l).2 := by
  rw [renderMsg]
  rw [dif_neg h]

/-- Helper: the loop writes at least one byte for a nonempty message. -/
theorem renderMsg_ne_nil (cp : List Char) (b : Bool) (l : List Char) (h : l ≠ []) :
    renderMsg cp b l ≠ [] := by
  intro hcontra
  rw [renderMsg_cons cp b l h] at hcontra
  rcases List.append_eq_nil.mp hcontra with ⟨h1, -⟩
  rcases List.append_eq_nil.mp h1 with ⟨-, h4⟩
  exact breakLine_fst_ne_nil l h h4

/-- Helper: the rendered body ends in the message's own last character. -/
theorem renderMsg_getLast (cp : List Char) :
    ∀ (n : Nat) (l : List Char), l.length ≤ n → l ≠ [] → l.getLast? ≠ some '\n' →
      ∀ b, (renderMsg cp b l).getLast? = l.getLast? := by
  intro n
  induction n with
  | zero =>
    intro l hlen hne _ _
    cases l with
    | nil => exact absurd rfl hne
    | cons c cs => simp at hlen
  | succ n ih =>
    intro l hlen hne hlast b
    by_cases hmem : '\n' ∈ l
    · obtain ⟨a, r, hna, hdec, hbl⟩ := breakLine_mem l hmem
      have hr : r ≠ [] := by
        rintro rfl
        apply hlast
        rw [hdec]
        exact List.getLast?_concat a
      have hrl : r.getLast? = l.getLast? := by
        rw [hdec, List.getLast?_append_of_ne_nil _ (by simp : ('\n' :: r) ≠ [])]
        rw [show ('\n' :: r) = ['\n'] ++ r from rfl, List.getLast?_append_of_ne_nil _ hr]
      have hlen' : r.length ≤ n := by
        have hll : l.length = a.length + (r.length + 1) := by rw [hdec]; simp
        omega
      rw [renderMsg_cons cp b l hne, hbl]
      rw [List.getLast?_append_of_ne_nil _ (renderMsg_ne_nil cp false r hr)]
      rw [ih r hlen' hr (hrl ▸ hlast) false]
      exact hrl
    · rw [renderMsg_cons cp b l hne, breakLine_not_mem l hmem]
      simp only [renderMsg_nil, List.append_nil]
      exact List.getLast?_append_of_ne_nil _ hne

/-- Helper: a successful strip yields a nonempty result whose last character
is not a newline. -/
theorem stripRev_some (y z : List Char) (h : stripRev y = some z) :
    ∃ c cs, z = c :: cs ∧ c ≠ '\n' := by
  induction y with
  | nil => exact absurd h (by simp [stripRev])
  | cons c cs ih =>
    by_cases hc : c = '\n'
    · simp only [stripRev, if_pos hc] at h
      exact ih h
    · simp only [stripRev, if_neg hc, Option.some_inj] at h
      exact ⟨c, cs, h.symm, hc⟩

/-- Helper: properties of the stripped message. -/
theorem strip_some_spec (x m : List Char) (h : stripTrailingNewlines x = some m) :
    m ≠ [] ∧ m.getLast? ≠ some '\n' := by
  unfold stripTrailingNewlines at h
  obtain ⟨z, hz, rfl⟩ := Option.map_eq_some'.mp h
  obtain ⟨c, cs, rfl, hc⟩ := stripRev_some _ _ hz
  constructor
  · simp
  · rw [List.reverse_cons, List.getLast?_concat]
    simp [hc]

/-- Helper: the segment loop renders exactly the logical lines of the
message, every line but the first prefixed by the continuation
indentation, with single newlines between them — provided the message is
nonempty and without trailing newline (which stripping guarantees). -/
theorem renderMsg_split (cp : List Char) :
    ∀ (n : Nat) (l : List Char), l.length ≤ n → l ≠ [] → l.getLast? ≠ some '\n' →
      ∀ b, ∃ m0 ms, splitLines l = m0 :: ms ∧
        renderMsg cp b l = (if b then [] else cp) ++ m0 ++
          (ms.map (fun s => '\n' :: (cp ++ s))).join := by
  intro n
  induction n with
  | zero =>
    intro l hlen hne _ _
    cases l with
    | nil => exact absurd rfl hne
    | cons c cs => simp at hlen
  | succ n ih =>
    intro l hlen hne hlast b
    by_cases hmem : '\n' ∈ l
    · obtain ⟨a, r, hna, hdec, hbl⟩ := breakLine_mem l hmem
      have hr : r ≠ [] := by
        rintro rfl
        apply hlast
        rw [hdec]
        exact List.getLast?_concat a
      have hrl : r.getLast? = l.getLast? := by
        rw [hdec, List.getLast?_append_of_ne_nil _ (by simp : ('\n' :: r) ≠ [])]
        rw [show ('\n' :: r) = ['\n'] ++ r from rfl, List.getLast?_append_of_ne_nil _ hr]
      have hlen' : r.length ≤ n := by
        have hll : l.length = a.length + (r.length + 1) := by rw [hdec]; simp
        omega
      obtain ⟨r0, rs, hsr, hrr⟩ := ih r hlen' hr (hrl ▸ hlast) false
      refine ⟨a, r0 :: rs, ?_, ?_⟩
      · rw [hdec, splitLines_decomp a r hna, hsr]
      · rw [renderMsg_cons cp b l hne, hbl]
        simp only [hrr, if_neg (Bool.false_ne_true), List.map_cons, List.join_cons]
        simp [List.append_assoc]
    · refine ⟨l, [], splitLines_not_mem l hmem, ?_⟩
      rw [renderMsg_cons cp b l hne, breakLine_not_mem l hmem]
      simp [renderMsg_nil]

/-- Claim C4: a forwarding Worker renders an event whose message contains an
embedded newline as one logical entry: trailing newlines are stripped
first, then the first output line carries the full header (timestamp,
level tag, file, line, function), every subsequent logical line of the
message follows a single newline and the fixed-width indentation with the
`->` arrow marker, and exactly one trailing newline terminates the whole
entry. -/
theorem C4_multiline_entry (w : Worker) (cg : Bool) (ts : String) (l : Line)
    (m : List Char) (hg : w.good cg = true)
    (hl : Level.toNat l.level ≤ Level.toNat w.level)
    (hs : stripTrailingNewlines l.msg = some m) (hnl : '\n' ∈ m) :
    ∃ m0 ms out, splitLines m = m0 :: ms ∧ ms ≠ [] ∧
      Worker.log w cg ts l = .wrote out ∧
      out = (if w.console then colorStr l.level else []) ++ header ts l ++
        (m0 ++ (ms.map (fun s => '\n' :: (contIndent ++ s))).join) ++
        (if w.console then resetColor else []) ++ ['\n'] ∧
      out.getLast? = some '\n' ∧ out.dropLast.getLast? ≠ some '\n' := by
  obtain ⟨hmne, hmlast⟩ := strip_some_spec l.msg m hs
  obtain ⟨m0, ms, hsplit, hrender⟩ :=
    renderMsg_split contIndent m.length m le_rfl hmne hmlast true
  have hmsne : ms ≠ [] := by
    obtain ⟨a, r, hna, hdec, -⟩ := breakLine_mem m hnl
    rw [hdec, splitLines_decomp a r hna] at hsplit
    injection hsplit with h1 h2
    intro hcon
    exact splitLines_ne_nil r (h2 ▸ hcon)
  have hnlt : ¬ Level.toNat w.level < Level.toNat l.level := Nat.not_lt.mpr hl
  have hlog : Worker.log w cg ts l = .wrote (format w.console ts l m) := by
    simp [Worker.log, hg, hnlt, hs]
  refine ⟨m0, ms, format w.console ts l m, hsplit, hmsne, hlog, ?_, ?_, ?_⟩
  · unfold format
    rw [hrender]
    simp [List.append_assoc]
  · unfold format
    exact List.getLast?_concat _
  · unfold format
    rw [List.dropLast_concat]
    by_cases hcons : w.console = true
    · rw [hcons]
      simp only [if_pos trivial, if_true]
      rw [List.getLast?_append_of_ne_nil _ (by decide : resetColor ≠ [])]
      decide
    · have hcf : w.console = false := by simpa using hcons
      rw [hcf]
      simp only [if_false, Bool.false_eq_true, List.nil_append, List.append_nil]
      rw [List.getLast?_append_of_ne_nil _ (renderMsg_ne_nil _ _ _ hmne)]
      rw [renderMsg_getLast contIndent m.length m le_rfl hmne hmlast true]
      exact hmlast

/-- Witness for C4: logging `"line1\nline2"` at INFO through a healthy
console worker with threshold INFO. -/
theorem C4_witness :
    (Worker.good ⟨"", Level.INFO, false⟩ true = true) ∧
      (Level.toNat Level.INFO ≤ Level.toNat Level.INFO) ∧
      (stripTrailingNewlines ("line1\nline2").data = some ("line1\nline2").data) ∧
      ('\n' ∈ ("line1\nline2").data) ∧
      (∃ m0 ms out,
        splitLines ("line1\nline2").data = m0 :: ms ∧ ms ≠ [] ∧
          Worker.log ⟨"", Level.INFO, false⟩ true "TS"
              ⟨Level.INFO, "f.ext", 42, "func", ("line1\nline2").data⟩ = .wrote out ∧
          out = (if Worker.console ⟨"", Level.INFO, false⟩ then colorStr Level.INFO
                else []) ++
              header "TS" ⟨Level.INFO, "f.ext", 42, "func", ("line1\nline2").data⟩ ++
              (m0 ++ (ms.map (fun s => '\n' :: (contIndent ++ s))).join) ++
              (if Worker.console ⟨"", Level.INFO, false⟩ then resetColor else []) ++
              ['\n'] ∧
          out.getLast? = some '\n' ∧ out.dropLast.getLast? ≠ some '\n') := by
  refine ⟨rfl, by decide, rfl, by decide, ?_⟩
  exact C4_multiline_entry ⟨"", Level.INFO, false⟩ true "TS"
    ⟨Level.INFO, "f.ext", 42, "func", ("line1\nline2").data⟩ ("line1\nline2").data
    rfl (by decide) rfl (by decide)

/-- Helper: the stripping loop reaches the empty string (and so reads out of
bounds) exactly on messages made entirely of newlines, the empty message
included. -/
theorem stripRev_none_iff (y : List Char) :
    stripRev y = none ↔ ∀ c ∈ y, c = '\n' := by
  induction y with
  | nil => simp [stripRev]
  | cons c cs ih =>
    by_cases hc : c = '\n'
    · simp [stripRev, hc, ih]
    · simp only [stripRev, if_neg hc]
      constructor
      · intro h
        exact absurd h (by simp)
      · intro h
        exact absurd (h c (List.mem_cons_self c cs)) hc

/-- Helper: `stripTrailingNewlines` fails exactly on all-newline messages. -/
theorem strip_none_iff (msg : List Char) :
    stripTrailingNewlines msg = none ↔ ∀ c ∈ msg, c = '\n' := by
  unfold stripTrailingNewlines
  rw [Option.map_eq_none', stripRev_none_iff]
  constructor
  · intro h c hc
    exact h c (List.mem_reverse.mpr hc)
  · intro h c hc
    exact h c (List.mem_reverse.mp hc)

/-- Claim C9, amended: for a forwarded event, the trailing-newline stripping
loop of `Worker::log` calls `back()` on an empty string exactly when the
accumulated message consists only of newline characters (the empty message
included); whenever the message contains at least one non-newline
character, the loop terminates without any out-of-bounds access and the
entry is formatted and written. -/
theorem C9_amended (w : Worker) (cg : Bool) (ts : String) (l : Line)
    (hg : w.good cg = true) (hl : Level.toNat l.level ≤ Level.toNat w.level) :
    (Worker.log w cg ts l = .oob ↔ ∀ c ∈ l.msg, c = '\n') ∧
      ((∃ c ∈ l.msg, c ≠ '\n') → ∃ out, Worker.log w cg ts l = .wrote out) := by
  have hnlt : ¬ Level.toNat w.level < Level.toNat l.level := Nat.not_lt.mpr hl
  constructor
  · cases hs : stripTrailingNewlines l.msg with
    | none =>
      simp only [Worker.log, hg, hnlt, hs]
      simp only [Bool.not_true, Bool.false_or, decide_eq_true_eq, if_neg hnlt]
      simpa using (strip_none_iff l.msg).mp hs
    | some m =>
      simp only [Worker.log, hg, hnlt, hs]
      simp only [Bool.not_true, Bool.false_or, decide_eq_true_eq, if_neg hnlt]
      constructor
      · intro h
        exact absurd h (by simp)
      · intro hall
        have hnone := (strip_none_iff l.msg).mpr hall
        rw [hnone] at hs
        exact Option.noConfusion hs
  · rintro ⟨c, hc, hcn⟩
    cases hs : stripTrailingNewlines l.msg with
    | none => exact absurd ((strip_none_iff l.msg).mp hs c hc) hcn
    | some m =>
      exact ⟨format w.console ts l m, by simp [Worker.log, hg, hnlt, hs]⟩

/-- Witness for C9 (amended): a healthy console worker at threshold INFO
forwards an INFO event whose message `"hi"` has non-newline characters and
writes it without reaching the out-of-bounds path. -/
theorem C9_witness :
    (Worker.good ⟨"", Level.INFO, false⟩ true = true) ∧
      (Level.toNat Level.INFO ≤ Level.toNat Level.INFO) ∧
      (∃ c ∈ ("hi").data, c ≠ '\n') ∧
      (∃ out, Worker.log ⟨"", Level.INFO, false⟩ true "TS"
        ⟨Level.INFO, "f.ext", 42, "func", ("hi").data⟩ = .wrote out) := by
  refine ⟨rfl, by decide, ⟨'h', by decide, by decide⟩, ?_⟩
  exact (C9_amended ⟨"", Level.INFO, false⟩ true "TS"
    ⟨Level.INFO, "f.ext", 42, "func", ("hi").data⟩ rfl (by decide)).2
    ⟨'h', by decide, by decide⟩

/-- Claim C3, amended: a failed sink open during `addWorker` on a fresh
identity is handled in two different ways, neither as claimed.  For a file
identity whose open fails, the call is fatal: the constructor's WARNING
`Line` dispatches through `Manager::log` and relocks the mutex `addWorker`
already holds — undefined behaviour (self-deadlock) — so the call never
returns, the Worker is not discarded, and no warning reaches the remaining
Workers.  For the console identity with an unhealthy `std::cout`, the call
is non-fatal and returns with the console Worker discarded (the worker
list is unchanged), but no WARNING-level diagnostic is emitted: only the
DEBUG add-announcement is dispatched through the surviving Workers. -/
theorem C3_amended (env : Env) (ts : String) (p : String) (lvl : Level)
    (st : List Worker) :
    ((∀ w ∈ st, w.path ≠ p) → p ≠ "" → env.openOk p = false →
        addWorker env ts p lvl st = .error ()) ∧
      ((∀ w ∈ st, w.path ≠ "") → env.coutGood = false →
        addWorker env ts "" lvl st =
          .ok (st, Manager.log env ts st (addedLine "" lvl))) := by
  constructor
  · intro hnone hp hopen
    have hupd := updateFirst_none_of p lvl st hnone
    have hsg : (mkWorker env p lvl).streamGood = false := by
      unfold mkWorker
      rw [if_neg hp]
      exact hopen
    simp [addWorker, hupd, hsg, hp]
  · intro hnone hcout
    have hupd := updateFirst_none_of "" lvl st hnone
    have hgood : (mkWorker env "" lvl).good env.coutGood = false := by
      simp [mkWorker, Worker.good, Worker.console, hcout]
    simp [addWorker, hupd, hgood]

/-- Witness for C3 (amended): on an empty worker list, a failing file open at
`logs/app.txt` self-deadlocks, while a console add with bad `std::cout`
returns with the list unchanged and only the DEBUG announcement
dispatched. -/
theorem C3_witness :
    ((∀ w ∈ ([] : List Worker), w.path ≠ "logs/app.txt") ∧
        ("logs/app.txt" ≠ "") ∧ envF.openOk "logs/app.txt" = false ∧
        addWorker envF "TS" "logs/app.txt" Level.INFO [] = .error ()) ∧
      ((∀ w ∈ ([] : List Worker), w.path ≠ "") ∧ envB.coutGood = false ∧
        addWorker envB "TS" "" Level.INFO [] =
          .ok ([], Manager.log envB "TS" [] (addedLine "" Level.INFO))) := by
  have h1 := (C3_amended envF "TS" "logs/app.txt" Level.INFO []).1
    (by simp) (by decide) rfl
  have h2 := (C3_amended envB "TS" "" Level.INFO []).2 (by simp) rfl
  exact ⟨⟨by simp, by decide, rfl, h1⟩, by simp, rfl, h2⟩

end Logger
